import Mathlib

/-!
Shallow embedding of the memory-rs Memory Engine: the in-memory vector store
(`src/vector_store/qdrant.rs`), the memory orchestrator (`src/memory/main.rs`),
the embedding cache (`src/embeddings/cache.rs`), the deduplicator
(`src/memory/dedup.rs`) and the shared cosine-similarity utility
(`src/utils.rs`).

Modelling conventions:
* `f32` values are modelled exactly as `F := Option ℚ`, where `none` stands for
  NaN and `some q` for a finite value.  Arithmetic propagates NaN; every
  comparison involving NaN is false, and `partial_cmp` on NaN is `none`,
  exactly as for Rust floats.  (Infinities do not arise on the paths modelled
  here: division only happens under a nonzero-divisor guard.)
* `f32::sqrt` is kept abstract: the model is parameterised by a function
  `s : ℚ → ℚ` used on nonnegative finite inputs; `fsqrtM` wraps it with the
  NaN cases.  Theorems that need sqrt facts state them as hypotheses on `s`.
* Rust `HashMap`s are modelled as association lists (one possible iteration
  order); `Vec` as `List`.
* SHA-256 hex hashing is kept abstract as a parameter `hashF : String → String`
  (the spec only relies on determinism and collision resistance).
* Fallible operations return `Except Error _`; stateful operations thread the
  state explicitly.
-/

namespace MemRs

/-- Model of `f32`: `none` is NaN, `some q` a finite float value. -/
abbrev F := Option ℚ

/-- `f32` addition: NaN-propagating. -/
def fadd : F → F → F
  | some x, some y => some (x + y)
  | _, _ => none

/-- `f32` multiplication: NaN-propagating. -/
def fmul : F → F → F
  | some x, some y => some (x * y)
  | _, _ => none

/-- `f32` division: NaN-propagating; division by literal zero leaves the
finite-value fragment (mapped to NaN here; unreachable on the guarded paths). -/
def fdiv : F → F → F
  | some x, some y => if y = 0 then none else some (x / y)
  | _, _ => none

/-- `f32` `<` comparison: any comparison involving NaN is false. -/
def flt : F → F → Bool
  | some x, some y => decide (x < y)
  | _, _ => false

/-- `f32` `>=` comparison: any comparison involving NaN is false. -/
def fge : F → F → Bool
  | some x, some y => decide (y ≤ x)
  | _, _ => false

/-- `f32` `== 0.0` test (NaN equals nothing). -/
def feqz : F → Bool
  | some x => decide (x = 0)
  | none => false

/-- `f32::partial_cmp`: `none` when either operand is NaN. -/
def fcmp : F → F → Option Ordering
  | some x, some y => some (compare x y)
  | _, _ => none

/-- `f32::sqrt` given the abstract nonnegative-case function `s`:
NaN on NaN, NaN on negative inputs. -/
def fsqrtM (s : ℚ → ℚ) : F → F
  | none => none
  | some q => if q < 0 then none else some (s q)

/-- `a.iter().zip(b).map(|(x, y)| x * y).sum()` over modelled floats. -/
def dotF (a b : List F) : F :=
  ((a.zip b).map fun p => fmul p.1 p.2).foldl fadd (some 0)

/-- `v.iter().map(|x| x * x).sum::<f32>()` over modelled floats. -/
def ssqF (v : List F) : F :=
  (v.map fun x => fmul x x).foldl fadd (some 0)

/-- `v.iter().map(|x| x * x).sum::<f32>().sqrt()`. -/
def normF (s : ℚ → ℚ) (v : List F) : F :=
  fsqrtM s (ssqF v)

/-- `cosine_similarity` from `src/vector_store/qdrant.rs` (lines 144-158):
guard `a.is_empty() || b.is_empty() || a.len() != b.len()` first, then the
zero-norm guard, then the division. -/
def cosine_similarity (s : ℚ → ℚ) (a b : List F) : F :=
  if a.isEmpty || b.isEmpty || a.length ≠ b.length then some 0
  else
    let dot_product := dotF a b
    let norm_a := normF s a
    let norm_b := normF s b
    if feqz norm_a || feqz norm_b then some 0
    else fdiv dot_product (fmul norm_a norm_b)

/-- `Deduplicator::compute_similarity` from `src/memory/dedup.rs`
(lines 91-105): guard `vec1.len() != vec2.len() || vec1.is_empty()`. -/
def compute_similarity (s : ℚ → ℚ) (vec1 vec2 : List F) : F :=
  if vec1.length ≠ vec2.length || vec1.isEmpty then some 0
  else
    let dot_product := dotF vec1 vec2
    let norm1 := normF s vec1
    let norm2 := normF s vec2
    if feqz norm1 || feqz norm2 then some 0
    else fdiv dot_product (fmul norm1 norm2)

/-- `cosine_similarity` from `src/utils.rs` (lines 13-27): same body as
`Deduplicator::compute_similarity`. -/
def utils_cosine_similarity (s : ℚ → ℚ) (vec1 vec2 : List F) : F :=
  if vec1.length ≠ vec2.length || vec1.isEmpty then some 0
  else
    let dot_product := dotF vec1 vec2
    let norm1 := normF s vec1
    let norm2 := normF s vec2
    if feqz norm1 || feqz norm2 then some 0
    else fdiv dot_product (fmul norm1 norm2)

/-! ## Association-list model of `HashMap<String, β>` -/

/-- `HashMap::get`. -/
def hmLookup {β : Type} (l : List (String × β)) (k : String) : Option β :=
  (l.find? fun p => p.1 == k).map Prod.snd

/-- `HashMap::contains_key`. -/
def hmContains {β : Type} (l : List (String × β)) (k : String) : Bool :=
  l.any fun p => p.1 == k

/-- `HashMap::insert` (overwrite if the key is present). -/
def hmInsert {β : Type} (l : List (String × β)) (k : String) (v : β) :
    List (String × β) :=
  if hmContains l k then l.map fun p => if p.1 == k then (k, v) else p
  else l ++ [(k, v)]

/-- `HashMap::remove`. -/
def hmRemove {β : Type} (l : List (String × β)) (k : String) :
    List (String × β) :=
  l.filter fun p => p.1 != k

/-! ## Data model (`src/vector_store/mod.rs`, `src/error.rs`) -/

/-- String-to-string custom metadata map, modelled as an association list. -/
abbrev Metadata := List (String × String)

/-- `VectorMetadata` from `src/vector_store/mod.rs`. -/
structure VectorMetadata where
  id : String
  user_id : String
  agent_id : Option String
  run_id : Option String
  text : String
  memory_type : String
  created_at : String
  updated_at : String
  custom_metadata : Metadata
  deriving DecidableEq, Repr

/-- `VectorEntry` from `src/vector_store/qdrant.rs`. -/
structure VectorEntry where
  vector : List F
  metadata : VectorMetadata
  deriving DecidableEq, Repr

/-- `SearchResult` from `src/vector_store/mod.rs`. -/
structure SearchResult where
  id : String
  score : F
  metadata : VectorMetadata
  deriving DecidableEq, Repr

/-- The error constructors from `src/error.rs` reachable in the modelled code. -/
inductive Error where
  | VectorStoreError (msg : String)
  | EmbeddingError (msg : String)
  deriving DecidableEq, Repr

/-- One collection: an id-keyed table, modelled as an association list. -/
abbrev Coll := List (String × VectorEntry)

/-- The `InMemoryStore` state: collection name → collection. -/
abbrev Store := List (String × Coll)

/-- `HashMap::get` on the collections map. -/
def Store.findColl (st : Store) (name : String) : Option Coll :=
  hmLookup st name

/-! ## A stable sort with a Boolean comparator, modelling `Vec::sort_by`
(Rust's `sort_by` is a stable sort; for comparators that are not total
orders it returns some unspecified permutation, which a stable insertion
sort soundly models). -/

/-- Insert `x` in front of the first element `y` with `le x y`. -/
def orderedInsertB (le : α → α → Bool) (x : α) : List α → List α
  | [] => [x]
  | y :: ys => if le x y then x :: y :: ys else y :: orderedInsertB le x ys

/-- Stable insertion sort: ascending with respect to `le`. -/
def sortByB (le : α → α → Bool) : List α → List α
  | [] => []
  | x :: xs => orderedInsertB le x (sortByB le xs)

/-- The comparator of `InMemoryStore::search` (qdrant.rs line 98):
`|a, b| b.1.partial_cmp(&a.1).unwrap_or(Ordering::Equal)`, turned into the
"not greater" Boolean relation that ascending sorting realises. -/
def scoreLe (a b : String × F × VectorMetadata) : Bool :=
  ((fcmp b.2.1 a.2.1).getD Ordering.eq) ≠ Ordering.gt

/-! ## `InMemoryStore` operations (`src/vector_store/qdrant.rs`) -/

namespace InMemoryStore

/-- `create_collection` (lines 39-48): `entry(..).or_insert_with(HashMap::new)`;
the vector size argument is ignored; always returns `Ok`. -/
def create_collection (st : Store) (collection_name : String)
    (_vector_size : ℕ) : Except Error Store :=
  .ok (if (Store.findColl st collection_name).isSome then st
       else st ++ [(collection_name, [])])

/-- `collection_exists` (lines 50-53). -/
def collection_exists (st : Store) (collection_name : String) :
    Except Error Bool :=
  .ok (Store.findColl st collection_name).isSome

/-- `upsert` (lines 55-69): `entry(..).or_insert_with(HashMap::new)` then
`collection.insert(id, VectorEntry)` for each triple. -/
def upsert (st : Store) (collection_name : String)
    (vectors : List (String × List F × VectorMetadata)) : Except Error Store :=
  let st1 := if (Store.findColl st collection_name).isSome then st
             else st ++ [(collection_name, [])]
  let c0 := (Store.findColl st1 collection_name).getD []
  let c1 := vectors.foldl
    (fun c v => hmInsert c v.1 ⟨v.2.1, v.2.2⟩) c0
  .ok (hmInsert st1 collection_name c1)

/-- The filter stage of `search` (qdrant.rs lines 84-95): score every entry,
and when a threshold is supplied drop entries with `score < threshold`
(a NaN score is never `<` anything, so it survives the filter). -/
def searchCandidates (s : ℚ → ℚ) (query_vector : List F)
    (score_threshold : Option F) (collection : Coll) :
    List (String × F × VectorMetadata) :=
  collection.filterMap fun p =>
    let score := cosine_similarity s query_vector p.2.vector
    match score_threshold with
    | some threshold =>
        if flt score threshold then none else some (p.1, score, p.2.metadata)
    | none => some (p.1, score, p.2.metadata)

/-- `search` (lines 71-112): missing collection errors; otherwise filter and
score the entries, sort by the descending-score comparator
(`b.1.partial_cmp(&a.1).unwrap_or(Equal)`), and take the first `limit`. -/
def search (s : ℚ → ℚ) (st : Store) (collection_name : String)
    (query_vector : List F) (limit : ℕ) (score_threshold : Option F) :
    Except Error (List SearchResult) :=
  match Store.findColl st collection_name with
  | none =>
      .error (.VectorStoreError ("Collection not found: " ++ collection_name))
  | some collection =>
      let sorted := sortByB scoreLe
        (searchCandidates s query_vector score_threshold collection)
      .ok ((sorted.take limit).map fun t => ⟨t.1, t.2.1, t.2.2⟩)

/-- `delete` (lines 114-126): remove the given ids from the collection when it
exists; a missing collection or missing ids are silently ignored. -/
def delete (st : Store) (collection_name : String) (ids : List String) :
    Except Error Store :=
  match Store.findColl st collection_name with
  | some c =>
      .ok (hmInsert st collection_name (ids.foldl (fun c' id => hmRemove c' id) c))
  | none => .ok st

/-- `delete_collection` (lines 128-132). -/
def delete_collection (st : Store) (collection_name : String) :
    Except Error Store :=
  .ok (hmRemove st collection_name)

/-- `count` (lines 134-140): size of the collection, 0 when absent. -/
def count (st : Store) (collection_name : String) : Except Error ℕ :=
  .ok (((Store.findColl st collection_name).map List.length).getD 0)

/-- Modelled from the spec: `InMemoryStore::get_all` is called by
`Memory::get_all` (`src/memory/main.rs` line 184) but neither the trait method
nor its `InMemoryStore` implementation appears under `src/` (only the test
mock's). Per spec §4.4/§8 it returns every stored entry of the named
collection, and on an absent collection it "must not crash" (empty result). -/
def get_all (st : Store) (collection_name : String) :
    Except Error (List VectorMetadata) :=
  .ok (((Store.findColl st collection_name).getD []).map fun p => p.2.metadata)

end InMemoryStore

/-! ## Memory data model (`src/memory/mod.rs`) and configuration
(`src/config.rs`) -/

/-- `MemoryItem` from `src/memory/mod.rs`. -/
structure MemoryItem where
  id : String
  user_id : String
  agent_id : Option String
  run_id : Option String
  content : String
  memory_type : String
  hash : String
  created_at : String
  updated_at : String
  metadata : Metadata
  deriving DecidableEq, Repr

/-- `MemoryItem::new`: the fresh UUID and the current timestamp are inputs of
the model (the source draws them from `Uuid::new_v4()` and `Utc::now()`);
`hashF` models `crate::utils::compute_hash` (SHA-256 hex). -/
def MemoryItem.new (hashF : String → String) (uuid now : String)
    (user_id content memory_type : String) : MemoryItem :=
  { id := uuid
    user_id := user_id
    agent_id := none
    run_id := none
    content := content
    memory_type := memory_type
    hash := hashF content
    created_at := now
    updated_at := now
    metadata := [] }

/-- `MemoryItem::to_vector_metadata`. -/
def MemoryItem.to_vector_metadata (m : MemoryItem) : VectorMetadata :=
  { id := m.id
    user_id := m.user_id
    agent_id := m.agent_id
    run_id := m.run_id
    text := m.content
    memory_type := m.memory_type
    created_at := m.created_at
    updated_at := m.updated_at
    custom_metadata := m.metadata }

/-- `SearchResultItem` from `src/memory/mod.rs`. -/
structure SearchResultItem where
  memory : MemoryItem
  score : F
  deriving DecidableEq, Repr

/-- The metadata → `MemoryItem` reconstruction inlined in `Memory::search`
and `Memory::get_all` (`src/memory/main.rs` lines 115-126 and 188-199):
the content hash field is left empty. -/
def VectorMetadata.toMemoryItem (metadata : VectorMetadata) : MemoryItem :=
  { id := metadata.id
    user_id := metadata.user_id
    agent_id := metadata.agent_id
    run_id := metadata.run_id
    content := metadata.text
    memory_type := metadata.memory_type
    hash := ""
    created_at := metadata.created_at
    updated_at := metadata.updated_at
    metadata := metadata.custom_metadata }

/-- The `SearchResult` → `SearchResultItem` conversion inlined in
`Memory::search` (lines 112-133): reconstruct the item, keep the score. -/
def SearchResult.toItem (result : SearchResult) : SearchResultItem :=
  { memory := result.metadata.toMemoryItem, score := result.score }

/-- The fields of `MemoryConfig` (`src/config.rs`) the orchestrator reads.
The source field `collection_prefix` is rendered `collectionPrefix`. -/
structure MemoryConfig where
  vector_dimension : Option ℕ
  collectionPrefix : Option String
  deriving DecidableEq, Repr

/-- `MemoryConfig::get_vector_dimension`: `unwrap_or(384)`. -/
def MemoryConfig.get_vector_dimension (c : MemoryConfig) : ℕ :=
  c.vector_dimension.getD 384

/-- `MemoryConfig::get_collection_prefix`: `unwrap_or("mem0")`. -/
def MemoryConfig.getCollectionPrefix (c : MemoryConfig) : String :=
  c.collectionPrefix.getD "mem0"

/-- The external capabilities the orchestrator is constructed with:
the SHA-256 hex hash, the `f32` square root, and the Embedder. -/
structure Env where
  hashF : String → String
  s : ℚ → ℚ
  embed : String → Except Error (List F)

/-! ## Memory orchestrator (`src/memory/main.rs`), over the `InMemoryStore` -/

namespace Memory

/-- `Memory::get_collection_name` (lines 36-42). -/
def get_collection_name (cfg : MemoryConfig) (user_id : String) : String :=
  cfg.getCollectionPrefix ++ "_" ++ user_id

/-- `Memory::ensure_collection` (lines 45-52). -/
def ensure_collection (cfg : MemoryConfig) (st : Store) (user_id : String) :
    Except Error Store :=
  InMemoryStore.create_collection st (get_collection_name cfg user_id)
    cfg.get_vector_dimension

/-- `Memory::add` (lines 57-90). -/
def add (env : Env) (cfg : MemoryConfig) (st : Store)
    (user_id content : String) (memory_type : Option String)
    (uuid now : String) : Except Error (Store × MemoryItem) := do
  let st1 ← ensure_collection cfg st user_id
  let memory := MemoryItem.new env.hashF uuid now user_id content
    (memory_type.getD "general")
  let embedding ← env.embed content
  let collection_name := get_collection_name cfg user_id
  let st2 ← InMemoryStore.upsert st1 collection_name
    [(memory.id, embedding, memory.to_vector_metadata)]
  .ok (st2, memory)

/-- `Memory::search` (lines 92-136).  Note line 108: the store is searched
with `Some(0.0)` as the score threshold. -/
def search (env : Env) (cfg : MemoryConfig) (st : Store)
    (user_id query : String) (limit : ℕ) :
    Except Error (Store × List SearchResultItem) := do
  let st1 ← ensure_collection cfg st user_id
  let query_embedding ← env.embed query
  let collection_name := get_collection_name cfg user_id
  let results ← InMemoryStore.search env.s st1 collection_name query_embedding
    limit (some (some 0))
  .ok (st1, results.map SearchResult.toItem)

/-- `Memory::update` (lines 138-166): reads `count("")` and discards the
result, builds a placeholder item with the requested id and content, embeds
the new content (propagating an embedding failure), and never touches the
store. `uuid`/`now` feed `MemoryItem::new`; `now2` is the second `Utc::now()`
assigned to `updated_at`. -/
def update (env : Env) (st : Store) (memory_id content : String)
    (uuid now now2 : String) : Except Error (Store × MemoryItem) := do
  let _collections := InMemoryStore.count st ""
  let memory0 := MemoryItem.new env.hashF uuid now "unknown" content "general"
  let memory := { memory0 with id := memory_id, updated_at := now2 }
  let _embedding ← env.embed content
  .ok (st, memory)

/-- `Memory::delete` (lines 168-174): acknowledges the request and does
nothing. -/
def delete (st : Store) (_memory_id : String) : Except Error (Store × Unit) :=
  .ok (st, ())

/-- `Memory::get_all` (lines 176-203); the store-side `get_all` is the
spec-modelled one (its implementation is absent from `src/`). -/
def get_all (cfg : MemoryConfig) (st : Store) (user_id : String) :
    Except Error (Store × List MemoryItem) := do
  let st1 ← ensure_collection cfg st user_id
  let collection_name := get_collection_name cfg user_id
  let metadata_list ← InMemoryStore.get_all st1 collection_name
  .ok (st1, metadata_list.map VectorMetadata.toMemoryItem)

end Memory

/-! ## Embedding cache (`src/embeddings/cache.rs`) -/

/-- `EmbeddingCache`: hash-keyed storage plus the LRU access-order vector. -/
structure EmbeddingCache where
  cache : List (String × List F)
  access_order : List String
  max_size : ℕ
  deriving DecidableEq, Repr

namespace EmbeddingCache

/-- `EmbeddingCache::new` (lines 18-24). -/
def new (max_size : ℕ) : EmbeddingCache :=
  { cache := [], access_order := [], max_size := max_size }

/-- `EmbeddingCache::get` (lines 34-46): on a hit, move the key to the back of
the access order (`retain` then `push`) and return the stored embedding. -/
def get (hashF : String → String) (c : EmbeddingCache) (text : String) :
    Option (List F) × EmbeddingCache :=
  let hash := hashF text
  match hmLookup c.cache hash with
  | some embedding =>
      (some embedding,
        { c with access_order :=
            (c.access_order.filter fun h => h != hash) ++ [hash] })
  | none => (none, c)

/-- `EmbeddingCache::put` (lines 49-66): when the cache is full and the key is
new, remove the front of `access_order` (the LRU key) from both structures —
if there is one — then refresh the key's recency and insert. -/
def put (hashF : String → String) (c : EmbeddingCache) (text : String)
    (embedding : List F) : EmbeddingCache :=
  let hash := hashF text
  let c1 :=
    if c.cache.length ≥ c.max_size && ! hmContains c.cache hash then
      match c.access_order.head? with
      | some lru_hash =>
          { c with cache := hmRemove c.cache lru_hash
                   access_order := c.access_order.tail }
      | none => c
    else c
  { c1 with
    access_order := (c1.access_order.filter fun h => h != hash) ++ [hash]
    cache := hmInsert c1.cache hash embedding }

/-- `EmbeddingCache::clear` (lines 69-72). -/
def clear (c : EmbeddingCache) : EmbeddingCache :=
  { c with cache := [], access_order := [] }

/-- `EmbeddingCache::size` (lines 75-77). -/
def size (c : EmbeddingCache) : ℕ := c.cache.length

/-- `EmbeddingCache::contains` (lines 88-91). -/
def contains (hashF : String → String) (c : EmbeddingCache) (text : String) :
    Bool :=
  hmContains c.cache (hashF text)

/-- `put` folded over a list of (text, embedding) pairs. -/
def putList (hashF : String → String) (c : EmbeddingCache)
    (kvs : List (String × List F)) : EmbeddingCache :=
  kvs.foldl (fun c' kv => put hashF c' kv.1 kv.2) c

end EmbeddingCache

/-- One public cache operation, for stating invariants over call sequences. -/
inductive CacheOp where
  | put (text : String) (embedding : List F)
  | get (text : String)
  | clear
  deriving Repr

/-- Apply one `CacheOp` (the result of `get` is discarded: only the state
evolution matters for the size invariant). -/
def applyCacheOp (hashF : String → String) (c : EmbeddingCache) :
    CacheOp → EmbeddingCache
  | .put text embedding => EmbeddingCache.put hashF c text embedding
  | .get text => (EmbeddingCache.get hashF c text).2
  | .clear => EmbeddingCache.clear c

/-- Run a sequence of cache operations. -/
def runCacheOps (hashF : String → String) (c : EmbeddingCache)
    (ops : List CacheOp) : EmbeddingCache :=
  ops.foldl (applyCacheOp hashF) c

/-! ## Deduplicator (`src/memory/dedup.rs`) -/

/-- `DeduplicationStrategy`. -/
inductive DeduplicationStrategy where
  | Exact
  | Similarity
  | None
  deriving DecidableEq, Repr

/-- `Deduplicator` state: strategy, hash → id cache, similarity threshold. -/
structure Deduplicator where
  strategy : DeduplicationStrategy
  cache : List (String × String)
  similarity_threshold : F
  deriving DecidableEq, Repr

namespace Deduplicator

/-- `Deduplicator::new` (lines 26-32): default threshold `0.95`. -/
def new (strategy : DeduplicationStrategy) : Deduplicator :=
  { strategy := strategy, cache := [], similarity_threshold := some (19/20) }

/-- `Deduplicator::with_threshold` (lines 35-41). -/
def with_threshold (strategy : DeduplicationStrategy) (threshold : F) :
    Deduplicator :=
  { strategy := strategy, cache := [], similarity_threshold := threshold }

/-- `Deduplicator::is_duplicate` (lines 51-58). -/
def is_duplicate (hashF : String → String) (d : Deduplicator)
    (content : String) : Bool :=
  if d.strategy = .None then false
  else hmContains d.cache (hashF content)

/-- `Deduplicator::register` (lines 61-68). -/
def register (hashF : String → String) (d : Deduplicator)
    (content : String) (id : String) : Deduplicator :=
  if d.strategy = .None then d
  else { d with cache := hmInsert d.cache (hashF content) id }

/-- `Deduplicator::get_duplicate` (lines 71-78). -/
def get_duplicate (hashF : String → String) (d : Deduplicator)
    (content : String) : Option String :=
  if d.strategy = .None then none
  else hmLookup d.cache (hashF content)

/-- `Deduplicator::clear` (lines 81-83). -/
def clear (d : Deduplicator) : Deduplicator := { d with cache := [] }

/-- `Deduplicator::cache_size` (lines 86-88). -/
def cache_size (d : Deduplicator) : ℕ := d.cache.length

end Deduplicator

/-- One deduplicator call, for comparing strategies over call sequences. -/
inductive DedupOp where
  | register (content id : String)
  | is_duplicate (content : String)
  | get_duplicate (content : String)
  | cache_size
  deriving Repr

/-- The visible result of one deduplicator call. -/
inductive DedupOut where
  | unit
  | bool (b : Bool)
  | opt (o : Option String)
  | nat (n : ℕ)
  deriving DecidableEq, Repr

/-- Apply one `DedupOp`, returning the new state and the visible result. -/
def applyDedupOp (hashF : String → String) (d : Deduplicator) :
    DedupOp → Deduplicator × DedupOut
  | .register content id => (Deduplicator.register hashF d content id, .unit)
  | .is_duplicate content =>
      (d, .bool (Deduplicator.is_duplicate hashF d content))
  | .get_duplicate content =>
      (d, .opt (Deduplicator.get_duplicate hashF d content))
  | .cache_size => (d, .nat (Deduplicator.cache_size d))

/-- Run a sequence of deduplicator calls, collecting the visible results. -/
def runDedupOps (hashF : String → String) (d : Deduplicator) :
    List DedupOp → Deduplicator × List DedupOut
  | [] => (d, [])
  | op :: ops =>
      let step := applyDedupOp hashF d op
      let rest := runDedupOps hashF step.1 ops
      (rest.1, step.2 :: rest.2)

/-! # Theorems -/

/-! ## Association-map lemmas -/

theorem hmLookup_append {β : Type} (l1 l2 : List (String × β)) (k : String) :
    hmLookup (l1 ++ l2) k = (hmLookup l1 k).or (hmLookup l2 k) := by
  cases hf : List.find? (fun p => p.1 == k) l1 <;>
    simp [hmLookup, List.find?_append, hf]

theorem hmLookup_singleton {β : Type} (k k' : String) (v : β) :
    hmLookup [(k, v)] k' = if k = k' then some v else none := by
  by_cases h : k = k' <;> simp [hmLookup, List.find?_cons, h]

theorem hmContains_eq_isSome {β : Type} (l : List (String × β)) (k : String) :
    hmContains l k = (hmLookup l k).isSome := by
  induction l with
  | nil => rfl
  | cons p t ih =>
      by_cases h : p.1 == k
      · simp [hmContains, hmLookup, List.find?_cons_of_pos _ h, h]
      · simpa [hmContains, hmLookup, List.find?_cons_of_neg _ h, h] using ih

/-! ## C4: search on an absent collection errors, count on it returns 0 -/

/-- C4: for every collection name absent from the store, `search` returns the
storage-not-found error (never an empty result list), while `count` on the
same absent name returns `Ok(0)`. -/
theorem search_missing_errors_count_missing_zero (s : ℚ → ℚ) (st : Store)
    (name : String) (h : Store.findColl st name = none) :
    (∀ q k thr, InMemoryStore.search s st name q k thr =
        .error (.VectorStoreError ("Collection not found: " ++ name))) ∧
    InMemoryStore.count st name = .ok 0 := by
  refine ⟨fun q k thr => ?_, ?_⟩
  · simp [InMemoryStore.search, h]
  · simp [InMemoryStore.count, h]

/-- Witness for C4 at the empty store and collection name "users". -/
theorem search_missing_errors_count_missing_zero_witness :
    (∀ q k thr, InMemoryStore.search id ([] : Store) "users" q k thr =
        .error (.VectorStoreError ("Collection not found: " ++ "users"))) ∧
    InMemoryStore.count ([] : Store) "users" = .ok 0 :=
  search_missing_errors_count_missing_zero id [] "users" rfl

/-! ## C8: create_collection is idempotent and side-effect-free when the
collection exists, and creates an empty collection when absent -/

/-- C8: on a state where the named collection exists, `create_collection`
returns `Ok` with the whole store (hence every collection and entry)
unchanged; on an absent name it appends an empty collection and leaves every
other name's lookup unchanged. -/
theorem create_collection_idempotent (st : Store) (name : String) (dim : ℕ) :
    (∀ c, Store.findColl st name = some c →
        InMemoryStore.create_collection st name dim = .ok st) ∧
    (Store.findColl st name = none →
        InMemoryStore.create_collection st name dim = .ok (st ++ [(name, [])]) ∧
        Store.findColl (st ++ [(name, [])]) name = some [] ∧
        ∀ n', n' ≠ name →
          Store.findColl (st ++ [(name, [])]) n' = Store.findColl st n') := by
  constructor
  · intro c hc
    simp [InMemoryStore.create_collection, Store.findColl] at hc ⊢
    simp [hc]
  · intro hn
    simp only [Store.findColl] at hn
    refine ⟨by simp [InMemoryStore.create_collection, Store.findColl, hn], ?_, ?_⟩
    · simp [Store.findColl, hmLookup_append, hn, hmLookup_singleton]
    · intro n' hne
      rw [Store.findColl, Store.findColl, hmLookup_append]
      cases hx : hmLookup st n' <;>
        simp [hx, hmLookup_singleton, Ne.symm hne]

/-- Witness for C8: a store that has the collection "c" (left unchanged) and
lacks the collection "d" (created empty). -/
theorem create_collection_idempotent_witness :
    InMemoryStore.create_collection [("c", [])] "c" 384 = .ok [("c", [])] ∧
    InMemoryStore.create_collection [("c", [])] "d" 384 =
      .ok ([("c", [])] ++ [("d", [])]) :=
  ⟨(create_collection_idempotent [("c", [])] "c" 384).1 [] rfl,
   ((create_collection_idempotent [("c", [])] "d" 384).2 rfl).1⟩

/-! ## C2: update and delete succeed without mutating the store -/

/-- C2: `update` (when the embedder succeeds) returns `Ok` with a `MemoryItem`
carrying the requested id and content, and `delete` returns `Ok` for every
id; neither changes the store state in any way. -/
theorem update_delete_leave_store_unchanged (env : Env) (st : Store)
    (memory_id content uuid now now2 : String) (v : List F)
    (hemb : env.embed content = .ok v) :
    (∃ m, Memory.update env st memory_id content uuid now now2 = .ok (st, m) ∧
        m.id = memory_id ∧ m.content = content) ∧
    ∀ mid, Memory.delete st mid = .ok (st, ()) := by
  refine ⟨⟨{ MemoryItem.new env.hashF uuid now "unknown" content "general" with
      id := memory_id, updated_at := now2 }, ?_, rfl, rfl⟩, fun mid => rfl⟩
  simp only [Memory.update, hemb]
  rfl

/-- Witness for C2 with a concrete one-collection store and an embedder that
returns the empty vector. -/
theorem update_delete_leave_store_unchanged_witness :
    (∃ m, Memory.update ⟨id, id, fun _ => .ok []⟩ [("c", [])] "m1" "hello"
        "u1" "t1" "t2" = .ok ([("c", [])], m) ∧
        m.id = "m1" ∧ m.content = "hello") ∧
    ∀ mid, Memory.delete ([("c", [])] : Store) mid = .ok ([("c", [])], ()) :=
  update_delete_leave_store_unchanged ⟨id, id, fun _ => .ok []⟩ [("c", [])]
    "m1" "hello" "u1" "t1" "t2" [] rfl

/-! ## C7: every cosine-similarity function returns 0.0 on degenerate input -/

theorem utils_cosine_eq_dedup :
    utils_cosine_similarity = compute_similarity := rfl

theorem cosine_similarity_guard (s : ℚ → ℚ) (a b : List F)
    (h : a.length ≠ b.length ∨ a = [] ∨ b = [] ∨
      normF s a = some 0 ∨ normF s b = some 0) :
    cosine_similarity s a b = some 0 := by
  rcases h with h | h | h | h | h
  · simp [cosine_similarity, h]
  · simp [cosine_similarity, h]
  · simp [cosine_similarity, h]
  · by_cases hg : (a.isEmpty || b.isEmpty || decide (a.length ≠ b.length)) = true
    · simp only [cosine_similarity]
      rw [if_pos hg]
    · simp only [cosine_similarity]
      rw [if_neg hg, if_pos (by rw [h]; simp [feqz])]
  · by_cases hg : (a.isEmpty || b.isEmpty || decide (a.length ≠ b.length)) = true
    · simp only [cosine_similarity]
      rw [if_pos hg]
    · simp only [cosine_similarity]
      rw [if_neg hg, if_pos (by rw [h]; simp [feqz])]

theorem compute_similarity_guard (s : ℚ → ℚ) (a b : List F)
    (h : a.length ≠ b.length ∨ a = [] ∨ b = [] ∨
      normF s a = some 0 ∨ normF s b = some 0) :
    compute_similarity s a b = some 0 := by
  rcases h with h | h | h | h | h
  · simp [compute_similarity, h]
  · simp [compute_similarity, h]
  · rcases a with _ | ⟨x, t⟩
    · simp [compute_similarity]
    · simp only [compute_similarity]
      rw [if_pos (by simp [h])]
  · by_cases hg : (decide (a.length ≠ b.length) || a.isEmpty) = true
    · simp only [compute_similarity]
      rw [if_pos hg]
    · simp only [compute_similarity]
      rw [if_neg hg, if_pos (by rw [h]; simp [feqz])]
  · by_cases hg : (decide (a.length ≠ b.length) || a.isEmpty) = true
    · simp only [compute_similarity]
      rw [if_pos hg]
    · simp only [compute_similarity]
      rw [if_neg hg, if_pos (by rw [h]; simp [feqz])]

/-- C7: the vector-store, deduplicator, and shared-utility cosine-similarity
functions each return exactly `0.0` — totally, with no error and no division
by zero — whenever the inputs differ in length, either is empty, or either
has zero computed norm. -/
theorem all_cosine_similarity_zero_on_degenerate (s : ℚ → ℚ) (a b : List F)
    (h : a.length ≠ b.length ∨ a = [] ∨ b = [] ∨
      normF s a = some 0 ∨ normF s b = some 0) :
    cosine_similarity s a b = some 0 ∧
    compute_similarity s a b = some 0 ∧
    utils_cosine_similarity s a b = some 0 :=
  ⟨cosine_similarity_guard s a b h, compute_similarity_guard s a b h,
   utils_cosine_eq_dedup ▸ compute_similarity_guard s a b h⟩

/-- Witness for C7 at a mismatched-length pair. -/
theorem all_cosine_similarity_zero_on_degenerate_witness :
    cosine_similarity id [some 1] [] = some 0 ∧
    compute_similarity id [some 1] [] = some 0 ∧
    utils_cosine_similarity id [some 1] [] = some 0 :=
  all_cosine_similarity_zero_on_degenerate id [some 1] []
    (Or.inr (Or.inr (Or.inl rfl)))

/-! ## C10: the Similarity strategy behaves exactly like Exact -/

theorem dedup_step_agree (hashF : String → String) (op : DedupOp)
    (d1 d2 : Deduplicator) (h1 : d1.strategy ≠ .None) (h2 : d2.strategy ≠ .None)
    (hc : d1.cache = d2.cache) :
    (applyDedupOp hashF d1 op).2 = (applyDedupOp hashF d2 op).2 ∧
    (applyDedupOp hashF d1 op).1.cache = (applyDedupOp hashF d2 op).1.cache ∧
    (applyDedupOp hashF d1 op).1.strategy = d1.strategy ∧
    (applyDedupOp hashF d2 op).1.strategy = d2.strategy := by
  cases op <;>
    simp [applyDedupOp, Deduplicator.register, Deduplicator.is_duplicate,
      Deduplicator.get_duplicate, Deduplicator.cache_size, h1, h2, hc]

theorem runDedupOps_agree (hashF : String → String) (ops : List DedupOp) :
    ∀ d1 d2 : Deduplicator, d1.strategy ≠ .None → d2.strategy ≠ .None →
      d1.cache = d2.cache →
      (runDedupOps hashF d1 ops).2 = (runDedupOps hashF d2 ops).2 ∧
      (runDedupOps hashF d1 ops).1.cache = (runDedupOps hashF d2 ops).1.cache := by
  induction ops with
  | nil => exact fun d1 d2 _ _ hc => ⟨rfl, hc⟩
  | cons op ops ih =>
      intro d1 d2 h1 h2 hc
      obtain ⟨ho, hcc, hs1, hs2⟩ := dedup_step_agree hashF op d1 d2 h1 h2 hc
      obtain ⟨o1, os1⟩ := ih (applyDedupOp hashF d1 op).1 (applyDedupOp hashF d2 op).1
        (hs1 ▸ h1) (hs2 ▸ h2) hcc
      exact ⟨by simp only [runDedupOps]; rw [ho, o1], by simp only [runDedupOps]; rw [os1]⟩

/-- C10: a `Deduplicator` built with the `Similarity` strategy is
observationally identical to one built with `Exact`: every sequence of
`register`/`is_duplicate`/`get_duplicate`/`cache_size` calls yields the same
visible results and the same hash cache, because these operations only test
the strategy against `None` and consult SHA-256 hash equality. -/
theorem dedup_similarity_behaves_as_exact (hashF : String → String)
    (ops : List DedupOp) :
    (runDedupOps hashF (Deduplicator.new .Similarity) ops).2 =
      (runDedupOps hashF (Deduplicator.new .Exact) ops).2 ∧
    (runDedupOps hashF (Deduplicator.new .Similarity) ops).1.cache =
      (runDedupOps hashF (Deduplicator.new .Exact) ops).1.cache :=
  runDedupOps_agree hashF ops _ _ (by simp [Deduplicator.new])
    (by simp [Deduplicator.new]) rfl

/-! ## Key-list lemmas for the association maps -/

theorem filter_bne_eq_self {l : List String} {a : String}
    (h : ∀ x ∈ l, x ≠ a) : (l.filter fun x => x != a) = l :=
  List.filter_eq_self.mpr fun x hx => by simpa [bne_iff_ne] using h x hx

theorem perm_filter_bne_append {l : List String} {a : String}
    (hnd : l.Nodup) (ha : a ∈ l) :
    ((l.filter fun x => x != a) ++ [a]).Perm l := by
  induction l with
  | nil => cases ha
  | cons x t ih =>
      rcases List.mem_cons.mp ha with rfl | hat
      · have hx : a ∉ t := (List.nodup_cons.mp hnd).1
        have ht : (t.filter fun y => y != a) = t :=
          filter_bne_eq_self fun y hy e => hx (e ▸ hy)
        simp [List.filter_cons, ht, List.perm_append_singleton]
      · have hxa : x ≠ a := fun e => (List.nodup_cons.mp hnd).1 (e ▸ hat)
        simpa [List.filter_cons, hxa] using
          (ih (List.nodup_cons.mp hnd).2 hat).cons x

theorem hmContains_iff_mem_keys {β : Type} (l : List (String × β)) (k : String) :
    hmContains l k = true ↔ k ∈ l.map Prod.fst := by
  simp only [hmContains, List.any_eq_true, List.mem_map, beq_iff_eq]

theorem keys_hmInsert_contains {β : Type} {l : List (String × β)} {k : String}
    (v : β) (h : hmContains l k = true) :
    (hmInsert l k v).map Prod.fst = l.map Prod.fst := by
  simp only [hmInsert, h, if_true, List.map_map]
  refine List.map_congr_left fun p hp => ?_
  by_cases hpk : p.1 == k
  · simp [Function.comp, hpk, (beq_iff_eq.mp hpk).symm]
  · simp [Function.comp, hpk]

theorem keys_hmInsert_not {β : Type} {l : List (String × β)} {k : String}
    (v : β) (h : hmContains l k = false) :
    (hmInsert l k v).map Prod.fst = l.map Prod.fst ++ [k] := by
  simp [hmInsert, h]

theorem keys_hmRemove {β : Type} (l : List (String × β)) (k : String) :
    (hmRemove l k).map Prod.fst = (l.map Prod.fst).filter fun x => x != k := by
  induction l with
  | nil => rfl
  | cons p t ih =>
      by_cases h : p.1 != k <;>
        simp [hmRemove, List.filter_cons, h] at ih ⊢ <;> simpa [h] using ih

theorem length_hmInsert_contains {β : Type} {l : List (String × β)} {k : String}
    (v : β) (h : hmContains l k = true) :
    (hmInsert l k v).length = l.length := by
  simp [hmInsert, h]

theorem length_hmInsert_not {β : Type} {l : List (String × β)} {k : String}
    (v : β) (h : hmContains l k = false) :
    (hmInsert l k v).length = l.length + 1 := by
  simp [hmInsert, h]

/-! ## Characterization of the cache operations -/

theorem cache_get_hit (hashF : String → String) (c : EmbeddingCache)
    (text : String) (v : List F)
    (h : hmLookup c.cache (hashF text) = some v) :
    EmbeddingCache.get hashF c text =
      (some v, { c with access_order :=
        (c.access_order.filter fun x => x != hashF text) ++ [hashF text] }) := by
  simp [EmbeddingCache.get, h]

theorem cache_get_miss (hashF : String → String) (c : EmbeddingCache)
    (text : String) (h : hmLookup c.cache (hashF text) = none) :
    EmbeddingCache.get hashF c text = (none, c) := by
  simp [EmbeddingCache.get, h]

theorem cache_put_existing (hashF : String → String) (c : EmbeddingCache)
    (text : String) (emb : List F)
    (h : hmContains c.cache (hashF text) = true) :
    EmbeddingCache.put hashF c text emb =
      { cache := hmInsert c.cache (hashF text) emb
        access_order :=
          (c.access_order.filter fun x => x != hashF text) ++ [hashF text]
        max_size := c.max_size } := by
  simp [EmbeddingCache.put, h]

theorem cache_put_fresh_room (hashF : String → String) (c : EmbeddingCache)
    (text : String) (emb : List F)
    (h : hmContains c.cache (hashF text) = false)
    (hroom : ¬ c.cache.length ≥ c.max_size) :
    EmbeddingCache.put hashF c text emb =
      { cache := c.cache ++ [(hashF text, emb)]
        access_order :=
          (c.access_order.filter fun x => x != hashF text) ++ [hashF text]
        max_size := c.max_size } := by
  simp [EmbeddingCache.put, h, hroom, hmInsert]

theorem cache_put_fresh_evict (hashF : String → String) (c : EmbeddingCache)
    (text : String) (emb : List F) (l0 : String) (rest : List String)
    (h : hmContains c.cache (hashF text) = false)
    (hfull : c.cache.length ≥ c.max_size)
    (hord : c.access_order = l0 :: rest)
    (h0 : hmContains (hmRemove c.cache l0) (hashF text) = false) :
    EmbeddingCache.put hashF c text emb =
      { cache := hmRemove c.cache l0 ++ [(hashF text, emb)]
        access_order := (rest.filter fun x => x != hashF text) ++ [hashF text]
        max_size := c.max_size } := by
  simp [EmbeddingCache.put, h, hfull, hord, hmInsert, h0]

theorem cache_put_fresh_empty_order (hashF : String → String)
    (c : EmbeddingCache) (text : String) (emb : List F)
    (h : hmContains c.cache (hashF text) = false)
    (hfull : c.cache.length ≥ c.max_size)
    (hord : c.access_order = []) :
    EmbeddingCache.put hashF c text emb =
      { cache := c.cache ++ [(hashF text, emb)]
        access_order := [hashF text]
        max_size := c.max_size } := by
  simp [EmbeddingCache.put, h, hfull, hord, hmInsert]

/-! ## Cache invariant: access order is a permutation of the stored keys -/

def CacheInv (c : EmbeddingCache) : Prop :=
  (c.cache.map Prod.fst).Nodup ∧ c.access_order.Perm (c.cache.map Prod.fst)

theorem cache_get_step (hashF : String → String) (c : EmbeddingCache)
    (text : String) (hinv : CacheInv c) :
    CacheInv (EmbeddingCache.get hashF c text).2 ∧
    (EmbeddingCache.get hashF c text).2.max_size = c.max_size ∧
    (EmbeddingCache.get hashF c text).2.cache = c.cache := by
  obtain ⟨hnd, hperm⟩ := hinv
  cases hl : hmLookup c.cache (hashF text) with
  | none => rw [cache_get_miss hashF c text hl]; exact ⟨⟨hnd, hperm⟩, rfl, rfl⟩
  | some v =>
      rw [cache_get_hit hashF c text v hl]
      have hcont : hmContains c.cache (hashF text) = true := by
        rw [hmContains_eq_isSome, hl]; rfl
      have hmem := (hmContains_iff_mem_keys _ _).mp hcont
      have hmemo := hperm.mem_iff.mpr hmem
      have hndo := hperm.nodup_iff.mpr hnd
      exact ⟨⟨hnd, (perm_filter_bne_append hndo hmemo).trans hperm⟩, rfl, rfl⟩

theorem cache_put_step (hashF : String → String) (c : EmbeddingCache)
    (text : String) (emb : List F) (hinv : CacheInv c) :
    CacheInv (EmbeddingCache.put hashF c text emb) ∧
    (EmbeddingCache.put hashF c text emb).max_size = c.max_size ∧
    (1 ≤ c.max_size → c.cache.length ≤ c.max_size →
      (EmbeddingCache.put hashF c text emb).cache.length ≤ c.max_size) := by
  obtain ⟨hnd, hperm⟩ := hinv
  by_cases hcont : hmContains c.cache (hashF text) = true
  · rw [cache_put_existing hashF c text emb hcont]
    have hkeys := keys_hmInsert_contains (l := c.cache) (k := hashF text) emb hcont
    have hmem := (hmContains_iff_mem_keys _ _).mp hcont
    have hmemo := hperm.mem_iff.mpr hmem
    have hndo := hperm.nodup_iff.mpr hnd
    refine ⟨⟨?_, ?_⟩, rfl, fun _ hlen => ?_⟩
    · rw [hkeys]; exact hnd
    · rw [hkeys]; exact (perm_filter_bne_append hndo hmemo).trans hperm
    · simpa [length_hmInsert_contains emb hcont] using hlen
  · have hcont' : hmContains c.cache (hashF text) = false := by simpa using hcont
    have hnotmem : hashF text ∉ c.cache.map Prod.fst := by
      intro hx
      rw [← hmContains_iff_mem_keys] at hx
      exact absurd hx hcont
    have hnotord : hashF text ∉ c.access_order := fun hx => hnotmem (hperm.subset hx)
    have hfil : (c.access_order.filter fun x => x != hashF text) = c.access_order :=
      filter_bne_eq_self fun x hx e => hnotord (e ▸ hx)
    by_cases hfull : c.cache.length ≥ c.max_size
    · cases hord : c.access_order with
      | nil =>
          rw [cache_put_fresh_empty_order hashF c text emb hcont' hfull hord]
          have hkeysnil : c.cache.map Prod.fst = [] := by
            have h0 := hperm
            rw [hord] at h0
            exact (h0.symm.eq_nil)
          have hcachenil : c.cache = [] := by
            cases hc : c.cache with
            | nil => rfl
            | cons p t => rw [hc] at hkeysnil; simp at hkeysnil
          refine ⟨⟨?_, ?_⟩, rfl, fun h1 _ => ?_⟩
          · rw [hcachenil]; simp
          · rw [hcachenil]; simp
          · rw [hcachenil] at hfull
            simp at hfull
            omega
      | cons l0 rest =>
          have hndo := hperm.nodup_iff.mpr hnd
          rw [hord] at hndo
          have hl0rest : l0 ∉ rest := (List.nodup_cons.mp hndo).1
          have hrestnd : rest.Nodup := (List.nodup_cons.mp hndo).2
          have h0 : hmContains (hmRemove c.cache l0) (hashF text) = false := by
            by_contra hx
            have hx' : hmContains (hmRemove c.cache l0) (hashF text) = true := by
              simpa using hx
            have hm := (hmContains_iff_mem_keys _ _).mp hx'
            rw [keys_hmRemove] at hm
            exact hnotmem (List.mem_of_mem_filter hm)
          rw [cache_put_fresh_evict hashF c text emb l0 rest hcont' hfull hord h0]
          have hrest : hashF text ∉ rest := by
            intro hx
            exact hnotord (hord ▸ List.mem_cons_of_mem l0 hx)
          have hfilr : (rest.filter fun x => x != hashF text) = rest :=
            filter_bne_eq_self fun x hx e => hrest (e ▸ hx)
          -- rest is a permutation of the keys with l0 removed
          have hpord : (l0 :: rest).Perm (c.cache.map Prod.fst) := hord ▸ hperm
          have hfl0 : (rest.filter fun x => x != l0) = rest :=
            filter_bne_eq_self fun x hx e => hl0rest (e ▸ hx)
          have hpermrest : rest.Perm ((c.cache.map Prod.fst).filter fun x => x != l0) := by
            have := hpord.filter fun x => x != l0
            simpa [List.filter_cons, hfl0] using this
          have hkeys1 := keys_hmRemove c.cache l0
          have hnotmem1 : hashF text ∉ (hmRemove c.cache l0).map Prod.fst := by
            rw [keys_hmRemove]
            intro hx
            exact hnotmem (List.mem_of_mem_filter hx)
          refine ⟨⟨?_, ?_⟩, rfl, fun h1 hlen => ?_⟩
          · rw [List.map_append, hkeys1]
            refine List.Nodup.append (hnd.filter _) (List.nodup_singleton _) ?_
            intro x hx hx2
            simp at hx2
            subst hx2
            exact hnotmem (List.mem_of_mem_filter hx)
          · show ((rest.filter fun x => x != hashF text) ++ [hashF text]).Perm
              ((hmRemove c.cache l0 ++ [(hashF text, emb)]).map Prod.fst)
            rw [List.map_append, hkeys1, hfilr]
            exact (hpermrest.append_right [hashF text])
          · have hlenrest : rest.length + 1 = c.cache.length := by
              have := hpord.length_eq
              simpa using this
            have hlenrm : (hmRemove c.cache l0).length = rest.length := by
              have h1' : (hmRemove c.cache l0).length =
                  ((hmRemove c.cache l0).map Prod.fst).length := by simp
              rw [h1', hkeys1, ← hpermrest.length_eq]
            simp only [List.length_append, hlenrm]
            simp
            omega
    · rw [cache_put_fresh_room hashF c text emb hcont' hfull]
      refine ⟨⟨?_, ?_⟩, rfl, fun h1 hlen => ?_⟩
      · rw [List.map_append]
        simp [List.nodup_append, hnd, hnotmem]
      · show ((c.access_order.filter fun x => x != hashF text) ++ [hashF text]).Perm
          ((c.cache ++ [(hashF text, emb)]).map Prod.fst)
        rw [hfil, List.map_append]
        exact hperm.append_right _
      · simp only [List.length_append, List.length_singleton]
        omega

theorem applyCacheOp_step (hashF : String → String) (c : EmbeddingCache)
    (op : CacheOp) (hinv : CacheInv c) :
    CacheInv (applyCacheOp hashF c op) ∧
    (applyCacheOp hashF c op).max_size = c.max_size ∧
    (1 ≤ c.max_size → c.cache.length ≤ c.max_size →
      (applyCacheOp hashF c op).cache.length ≤ c.max_size) := by
  cases op with
  | put t e => exact cache_put_step hashF c t e hinv
  | get t =>
      obtain ⟨hi, hm, hc⟩ := cache_get_step hashF c t hinv
      exact ⟨hi, hm, fun _ hlen => by
        show (EmbeddingCache.get hashF c t).2.cache.length ≤ c.max_size
        rw [hc]; exact hlen⟩
  | clear =>
      exact ⟨⟨List.nodup_nil, List.Perm.refl _⟩, rfl, fun _ _ => by
        simp [applyCacheOp, EmbeddingCache.clear]⟩

theorem runCacheOps_invariant (hashF : String → String) (ops : List CacheOp) :
    ∀ c : EmbeddingCache, CacheInv c → 1 ≤ c.max_size →
      c.cache.length ≤ c.max_size →
      CacheInv (runCacheOps hashF c ops) ∧
      (runCacheOps hashF c ops).max_size = c.max_size ∧
      (runCacheOps hashF c ops).cache.length ≤ c.max_size := by
  induction ops with
  | nil => exact fun c hinv _ hlen => ⟨hinv, rfl, hlen⟩
  | cons op ops ih =>
      intro c hinv h1 hlen
      obtain ⟨hi, hm, hb⟩ := applyCacheOp_step hashF c op hinv
      obtain ⟨ri, rm, rb⟩ := ih (applyCacheOp hashF c op) hi
        (by rw [hm]; exact h1) (by rw [hm]; exact hb h1 hlen)
      refine ⟨ri, ?_, ?_⟩
      · show (runCacheOps hashF (applyCacheOp hashF c op) ops).max_size = c.max_size
        rw [rm, hm]
      · show (runCacheOps hashF (applyCacheOp hashF c op) ops).cache.length ≤ c.max_size
        rw [← hm]; exact rb

/-! ## C9: the size bound holds for max_size ≥ 1 but leaks at max_size 0 -/

/-- C9: for every cache built with `max_size ≥ 1`, every sequence of
`put`/`get`/`clear` calls keeps `size() ≤ max_size`; but with `max_size = 0`
a single `put` still inserts (the empty access-order list yields no eviction
candidate), making `size() = 1` exceed the configured capacity. -/
theorem cache_size_bound_and_zero_capacity_leak :
    (∀ (hashF : String → String) (max_size : ℕ), 1 ≤ max_size →
      ∀ ops : List CacheOp,
        (runCacheOps hashF (EmbeddingCache.new max_size) ops).size ≤ max_size) ∧
    (∀ (hashF : String → String) (text : String) (emb : List F),
      (EmbeddingCache.put hashF (EmbeddingCache.new 0) text emb).size = 1) := by
  constructor
  · intro hashF max_size h1 ops
    have h := (runCacheOps_invariant hashF ops (EmbeddingCache.new max_size)
      ⟨List.nodup_nil, List.Perm.refl _⟩ h1
      (by simp [EmbeddingCache.new])).2.2
    simpa [EmbeddingCache.size, EmbeddingCache.new] using h
  · intro hashF text emb
    rfl

/-- Witness for C9: a concrete operation sequence on capacity 2, and the
single overflowing put on capacity 0. -/
theorem cache_size_bound_and_zero_capacity_leak_witness :
    (runCacheOps id (EmbeddingCache.new 2)
      [.put "a" [], .put "b" [], .get "a", .put "c" [], .clear,
       .put "d" []]).size ≤ 2 ∧
    (EmbeddingCache.put id (EmbeddingCache.new 0) "x" []).size = 1 :=
  ⟨cache_size_bound_and_zero_capacity_leak.1 id 2 (by decide) _,
   cache_size_bound_and_zero_capacity_leak.2 id "x" []⟩

/-! ## Lookup/insert/remove lemmas for the association maps -/

theorem hmContains_append {β : Type} (l1 l2 : List (String × β)) (k : String) :
    hmContains (l1 ++ l2) k = (hmContains l1 k || hmContains l2 k) := by
  simp [hmContains, List.any_append]

theorem hmLookup_none_of_contains_false {β : Type} {l : List (String × β)}
    {k : String} (h : hmContains l k = false) : hmLookup l k = none := by
  rw [hmContains_eq_isSome] at h
  cases hl : hmLookup l k with
  | none => rfl
  | some v => rw [hl] at h; simp at h

theorem hmLookup_cons {β : Type} (p : String × β) (t : List (String × β))
    (k : String) :
    hmLookup (p :: t) k = if p.1 == k then some p.2 else hmLookup t k := by
  by_cases h : (p.1 == k) = true <;> simp [hmLookup, List.find?_cons, h]

theorem hmInsert_cons_ne {β : Type} (p : String × β) (t : List (String × β))
    (k : String) (v : β) (hp : (p.1 == k) = false) :
    hmInsert (p :: t) k v = p :: hmInsert t k v := by
  have hc : hmContains (p :: t) k = hmContains t k := by
    simp [hmContains, List.any_cons, hp]
  by_cases hct : hmContains t k = true
  · simp only [hmInsert, hc, hct, if_true, List.map_cons]
    rw [show (if p.1 == k then (k, v) else p) = p by simp [hp]]
  · have hct' : hmContains t k = false := by simpa using hct
    simp [hmInsert, hc, hct']

theorem hmLookup_hmInsert_self {β : Type} (l : List (String × β)) (k : String)
    (v : β) : hmLookup (hmInsert l k v) k = some v := by
  induction l with
  | nil => simp [hmInsert, hmContains, hmLookup]
  | cons p t ih =>
      by_cases hp : (p.1 == k) = true
      · have hcont : hmContains (p :: t) k = true := by
          simp [hmContains, List.any_cons, hp]
        simp only [hmInsert, hcont, if_true, List.map_cons]
        rw [show (if p.1 == k then (k, v) else p) = (k, v) by simp [hp]]
        rw [hmLookup_cons]
        simp
      · rw [hmInsert_cons_ne p t k v (by simpa using hp)]
        rw [hmLookup_cons, if_neg hp]
        exact ih

theorem hmLookup_map_subst {β : Type} (t : List (String × β)) (k k' : String)
    (v : β) (h : k' ≠ k) :
    hmLookup (t.map fun p => if p.1 == k then (k, v) else p) k' =
      hmLookup t k' := by
  induction t with
  | nil => rfl
  | cons q t ih =>
      simp only [List.map_cons]
      by_cases hq : (q.1 == k) = true
      · have hkk' : ((k : String) == k') = false :=
          beq_eq_false_iff_ne.mpr (Ne.symm h)
        have hqk' : (q.1 == k') = false := by
          rw [beq_iff_eq.mp hq]; exact hkk'
        rw [show (if q.1 == k then (k, v) else q) = (k, v) by simp [hq]]
        rw [hmLookup_cons, hmLookup_cons]
        simp only [hkk', hqk', Bool.false_eq_true, if_false]
        exact ih
      · rw [show (if q.1 == k then (k, v) else q) = q by simp [hq]]
        rw [hmLookup_cons, hmLookup_cons]
        by_cases hq' : (q.1 == k') = true
        · rw [if_pos hq', if_pos hq']
        · rw [if_neg hq', if_neg hq']
          exact ih

theorem hmLookup_hmInsert_ne {β : Type} (l : List (String × β)) (k k' : String)
    (v : β) (h : k' ≠ k) :
    hmLookup (hmInsert l k v) k' = hmLookup l k' := by
  by_cases hc : hmContains l k = true
  · simp only [hmInsert, hc, if_true]
    exact hmLookup_map_subst l k k' v h
  · have hc' : hmContains l k = false := by simpa using hc
    simp only [hmInsert, hc', Bool.false_eq_true, if_false]
    rw [hmLookup_append]
    cases hl : hmLookup l k' with
    | some w => rfl
    | none =>
        simp [hmLookup, List.find?_cons, beq_eq_false_iff_ne.mpr (Ne.symm h)]

theorem hmRemove_eq_self {β : Type} {l : List (String × β)} {k : String}
    (h : k ∉ l.map Prod.fst) : hmRemove l k = l :=
  List.filter_eq_self.mpr fun p hp => by
    have : p.1 ≠ k := fun e => h (e ▸ List.mem_map_of_mem Prod.fst hp)
    simpa [bne_iff_ne] using this

theorem hmRemove_head {β : Type} (k : String) (v : β) (t : List (String × β))
    (h : k ∉ t.map Prod.fst) : hmRemove ((k, v) :: t) k = t := by
  have ht := hmRemove_eq_self (l := t) (k := k) h
  simp [hmRemove] at ht ⊢
  exact ht

theorem hmContains_hmRemove_false {β : Type} {l : List (String × β)}
    {k : String} (k' : String) (h : hmContains l k = false) :
    hmContains (hmRemove l k') k = false := by
  by_contra hx
  have hx' : hmContains (hmRemove l k') k = true := by simpa using hx
  have hm := (hmContains_iff_mem_keys _ _).mp hx'
  rw [keys_hmRemove] at hm
  have : k ∈ l.map Prod.fst := List.mem_of_mem_filter hm
  rw [← hmContains_iff_mem_keys] at this
  rw [h] at this
  exact Bool.false_ne_true this

theorem hmContains_hmRemove_true {β : Type} {l : List (String × β)}
    {k : String} {k' : String} (hne : k ≠ k')
    (h : hmContains l k = true) :
    hmContains (hmRemove l k') k = true := by
  rw [hmContains_iff_mem_keys] at h ⊢
  rw [keys_hmRemove]
  exact List.mem_filter.mpr ⟨h, by simpa [bne_iff_ne] using hne⟩

/-! ## Filling an LRU cache with fresh keys -/

theorem putList_fresh_fill (hashF : String → String) :
    ∀ (kvs : List (String × List F)) (c : EmbeddingCache),
      c.access_order = c.cache.map Prod.fst →
      c.cache.length + kvs.length ≤ c.max_size →
      (∀ kv ∈ kvs, hmContains c.cache (hashF kv.1) = false) →
      (kvs.map fun kv => hashF kv.1).Nodup →
      EmbeddingCache.putList hashF c kvs =
        { cache := c.cache ++ (kvs.map fun kv => (hashF kv.1, kv.2))
          access_order := c.cache.map Prod.fst ++ (kvs.map fun kv => hashF kv.1)
          max_size := c.max_size } := by
  intro kvs
  induction kvs with
  | nil =>
      intro c hord hlen hfresh hnd
      cases c with
      | mk cache order max =>
          simp only [EmbeddingCache.putList, List.foldl_nil, List.map_nil,
            List.append_nil]
          simp only at hord
          rw [hord]
  | cons kv t ih =>
      intro c hord hlen hfresh hnd
      have hcont := hfresh kv (List.mem_cons_self _ _)
      have hroom : ¬ c.cache.length ≥ c.max_size := by
        simp only [List.length_cons] at hlen
        omega
      have hnotmem : hashF kv.1 ∉ c.cache.map Prod.fst := by
        intro hx
        rw [← hmContains_iff_mem_keys] at hx
        rw [hcont] at hx
        exact Bool.false_ne_true hx
      have hnotord : hashF kv.1 ∉ c.access_order := by rw [hord]; exact hnotmem
      have hfil : (c.access_order.filter fun x => x != hashF kv.1) =
          c.access_order :=
        filter_bne_eq_self fun x hx e => hnotord (e ▸ hx)
      have hstep := cache_put_fresh_room hashF c kv.1 kv.2 hcont hroom
      rw [hfil, hord] at hstep
      have hhd : hashF kv.1 ∉ List.map (fun kv => hashF kv.1) t := by
        simpa using (List.nodup_cons.mp hnd).1
      have hheadne : ∀ kv' ∈ t, (hashF kv.1 == hashF kv'.1) = false := by
        intro kv' hkv'
        refine beq_eq_false_iff_ne.mpr fun e => hhd ?_
        rw [e]
        exact List.mem_map_of_mem _ hkv'
      have hrec := ih
        { cache := c.cache ++ [(hashF kv.1, kv.2)]
          access_order := c.cache.map Prod.fst ++ [hashF kv.1]
          max_size := c.max_size }
        (by show List.map Prod.fst c.cache ++ [hashF kv.1] =
              List.map Prod.fst (c.cache ++ [(hashF kv.1, kv.2)])
            rw [List.map_append]
            rfl)
        (by show (c.cache ++ [(hashF kv.1, kv.2)]).length + t.length ≤ c.max_size
            rw [List.length_append]
            simp only [List.length_cons] at hlen
            simp only [List.length_singleton]
            omega)
        (by intro kv' hkv'
            rw [hmContains_append]
            rw [hfresh kv' (List.mem_cons_of_mem kv hkv')]
            simp [hmContains, hheadne kv' hkv'])
        (List.nodup_cons.mp hnd).2
      show EmbeddingCache.putList hashF (EmbeddingCache.put hashF c kv.1 kv.2) t = _
      rw [hstep, hrec]
      simp [List.append_assoc]

/-! ## C5: LRU eviction, recency refresh, and in-place update -/

/-- C5: (i) filling an empty cache of capacity `n ≥ 1` with `n + 1`
distinct-hash keys leaves exactly the last `n` keys cached: the single
least-recently-touched key (the first inserted) is evicted and no other;
(ii) a `get` hit returns the stored vector, leaves the table unchanged and
moves the key to most-recently-used; (iii) after a `get` hit, a later `put`
of a fresh key evicts only a key untouched since (the refreshed key stays
cached); (iv) `put` of an existing key keeps the table size, stores the new
value, leaves every other key's value unchanged, and refreshes recency. -/
theorem cache_lru_spec (hashF : String → String) :
    (∀ (n : ℕ) (first : String × List F) (mid : List (String × List F))
        (last : String × List F),
        1 ≤ n → (first :: mid).length = n →
        (((first :: mid) ++ [last]).map fun kv => hashF kv.1).Nodup →
        (EmbeddingCache.putList hashF (EmbeddingCache.new n)
            ((first :: mid) ++ [last])).cache =
          ((mid ++ [last]).map fun kv => (hashF kv.1, kv.2)) ∧
        EmbeddingCache.contains hashF
          (EmbeddingCache.putList hashF (EmbeddingCache.new n)
            ((first :: mid) ++ [last])) first.1 = false ∧
        ∀ kv ∈ mid ++ [last],
          EmbeddingCache.contains hashF
            (EmbeddingCache.putList hashF (EmbeddingCache.new n)
              ((first :: mid) ++ [last])) kv.1 = true) ∧
    (∀ (c : EmbeddingCache) (text : String) (v : List F),
        hmLookup c.cache (hashF text) = some v →
        (EmbeddingCache.get hashF c text).1 = some v ∧
        (EmbeddingCache.get hashF c text).2.cache = c.cache ∧
        (EmbeddingCache.get hashF c text).2.access_order =
          (c.access_order.filter fun x => x != hashF text) ++ [hashF text]) ∧
    (∀ (c : EmbeddingCache) (text : String) (v : List F) (text' : String)
        (emb : List F),
        hmLookup c.cache (hashF text) = some v →
        hashF text' ≠ hashF text →
        hmContains c.cache (hashF text') = false →
        (c.access_order.filter fun x => x != hashF text) ≠ [] →
        EmbeddingCache.contains hashF
          (EmbeddingCache.put hashF (EmbeddingCache.get hashF c text).2
            text' emb) text = true) ∧
    (∀ (c : EmbeddingCache) (text : String) (emb : List F),
        hmContains c.cache (hashF text) = true →
        (EmbeddingCache.put hashF c text emb).cache.length = c.cache.length ∧
        hmLookup (EmbeddingCache.put hashF c text emb).cache (hashF text) =
          some emb ∧
        (∀ k, k ≠ hashF text →
          hmLookup (EmbeddingCache.put hashF c text emb).cache k =
            hmLookup c.cache k) ∧
        (EmbeddingCache.put hashF c text emb).access_order =
          (c.access_order.filter fun x => x != hashF text) ++ [hashF text]) := by
  refine ⟨?_, ?_, ?_, ?_⟩
  · -- (i) eviction of exactly the least-recently-touched key
    intro n first mid last h1 hlen hnd
    have hndA : ((first :: mid).map fun kv => hashF kv.1).Nodup := by
      rw [List.map_append] at hnd
      exact hnd.of_append_left
    have hlast_notin : hashF last.1 ∉ ((first :: mid).map fun kv => hashF kv.1) := by
      rw [List.map_append] at hnd
      intro hx
      rcases List.nodup_append.mp hnd with ⟨-, -, hdisj⟩
      exact hdisj hx (by simp)
    have hfill := putList_fresh_fill hashF (first :: mid) (EmbeddingCache.new n)
      rfl (by simp [EmbeddingCache.new, hlen]) (fun kv _ => rfl) hndA
    have hsplit : EmbeddingCache.putList hashF (EmbeddingCache.new n)
        ((first :: mid) ++ [last]) =
        EmbeddingCache.put hashF
          (EmbeddingCache.putList hashF (EmbeddingCache.new n) (first :: mid))
          last.1 last.2 := by
      simp [EmbeddingCache.putList, List.foldl_append]
    rw [hsplit, hfill]
    have hnewc : (EmbeddingCache.new n).cache = [] := rfl
    have hnewm : (EmbeddingCache.new n).max_size = n := rfl
    simp only [hnewc, hnewm, List.map_nil, List.nil_append]
    set cfull : EmbeddingCache :=
      { cache := (first :: mid).map fun kv => (hashF kv.1, kv.2)
        access_order := (first :: mid).map fun kv => hashF kv.1
        max_size := n } with hcfull
    have hkeys : cfull.cache.map Prod.fst =
        (first :: mid).map fun kv => hashF kv.1 := by
      simp [hcfull, List.map_map, Function.comp]
    have hcontlast : hmContains cfull.cache (hashF last.1) = false := by
      rw [Bool.eq_false_iff]
      intro hx
      rw [hmContains_iff_mem_keys, hkeys] at hx
      exact hlast_notin hx
    have hfull : cfull.cache.length ≥ cfull.max_size := by
      simp [hcfull]
      simp only [List.length_cons] at hlen
      omega
    have hord : cfull.access_order =
        hashF first.1 :: (mid.map fun kv => hashF kv.1) := by
      simp [hcfull]
    have h0 : hmContains (hmRemove cfull.cache (hashF first.1))
        (hashF last.1) = false :=
      hmContains_hmRemove_false _ hcontlast
    rw [cache_put_fresh_evict hashF cfull last.1 last.2 _ _ hcontlast hfull
      hord h0]
    have hfirst_notin_mid : hashF first.1 ∉ (mid.map fun kv => hashF kv.1) := by
      have := (List.nodup_cons.mp hndA).1
      simpa using this
    have hrem : hmRemove cfull.cache (hashF first.1) =
        mid.map fun kv => (hashF kv.1, kv.2) := by
      have : cfull.cache = (hashF first.1, first.2) ::
          (mid.map fun kv => (hashF kv.1, kv.2)) := by simp [hcfull]
      rw [this]
      refine hmRemove_head _ _ _ ?_
      simpa [List.map_map, Function.comp] using hfirst_notin_mid
    have hlastmid : hashF last.1 ∉ (mid.map fun kv => hashF kv.1) := by
      intro hx
      exact hlast_notin (List.mem_cons_of_mem _ hx)
    have hfilmid : ((mid.map fun kv => hashF kv.1).filter
        fun x => x != hashF last.1) = mid.map fun kv => hashF kv.1 :=
      filter_bne_eq_self fun x hx e => hlastmid (e ▸ hx)
    refine ⟨?_, ?_, ?_⟩
    · simp only [hrem, List.map_append]
      rfl
    · show hmContains _ (hashF first.1) = false
      rw [Bool.eq_false_iff]
      intro hx
      rw [hmContains_iff_mem_keys] at hx
      simp only [hrem] at hx
      rw [List.map_append, List.map_map] at hx
      rcases List.mem_append.mp hx with hx | hx
      · exact hfirst_notin_mid (by simpa [Function.comp] using hx)
      · simp at hx
        have : hashF last.1 ∈ ((first :: mid).map fun kv => hashF kv.1) := by
          rw [← hx]
          simp
        exact hlast_notin this
    · intro kv hkv
      show hmContains _ (hashF kv.1) = true
      rw [hmContains_iff_mem_keys]
      simp only [hrem]
      rw [List.map_append, List.map_map]
      rcases List.mem_append.mp (List.mem_append.mpr (by
        rcases List.mem_append.mp hkv with h | h
        · exact Or.inl h
        · exact Or.inr h)) with h | h
      · exact List.mem_append.mpr (Or.inl (by
          simpa [Function.comp] using List.mem_map_of_mem (fun kv => hashF kv.1) h))
      · simp at h
        subst h
        exact List.mem_append.mpr (Or.inr (by simp))
  · -- (ii) get hit refreshes recency
    intro c text v hl
    rw [cache_get_hit hashF c text v hl]
    exact ⟨rfl, rfl, rfl⟩
  · -- (iii) eviction after a get hit spares the refreshed key
    intro c text v text' emb hl hne hfresh hfilne
    have hconth : hmContains c.cache (hashF text) = true := by
      rw [hmContains_eq_isSome, hl]; rfl
    rw [cache_get_hit hashF c text v hl]
    set c' : EmbeddingCache :=
      { c with access_order :=
          (c.access_order.filter fun x => x != hashF text) ++ [hashF text] }
      with hc'
    have hcache' : c'.cache = c.cache := rfl
    have hcont' : hmContains c'.cache (hashF text') = false := by
      rw [hcache']; exact hfresh
    by_cases hfull : c'.cache.length ≥ c'.max_size
    · cases hf : (c.access_order.filter fun x => x != hashF text) with
      | nil => exact absurd hf hfilne
      | cons f0 frest =>
          have hf0ne : f0 ≠ hashF text := by
            have hmem : f0 ∈ (c.access_order.filter fun x => x != hashF text) := by
              rw [hf]; exact List.mem_cons_self _ _
            have := (List.mem_filter.mp hmem).2
            exact bne_iff_ne.mp this
          have hord' : c'.access_order = f0 :: (frest ++ [hashF text]) := by
            rw [hc']
            simp [hf]
          have h0 : hmContains (hmRemove c'.cache f0) (hashF text') = false := by
            rw [hcache']
            exact hmContains_hmRemove_false _ hfresh
          rw [cache_put_fresh_evict hashF c' text' emb f0
            (frest ++ [hashF text]) hcont' hfull hord' h0]
          show hmContains _ (hashF text) = true
          rw [hmContains_append]
          rw [hcache']
          rw [hmContains_hmRemove_true (Ne.symm hf0ne) hconth]
          rfl
    · rw [cache_put_fresh_room hashF c' text' emb hcont' hfull]
      show hmContains _ (hashF text) = true
      rw [hmContains_append]
      rw [hcache']
      rw [hconth]
      rfl
  · -- (iv) put of an existing key
    intro c text emb hcont
    rw [cache_put_existing hashF c text emb hcont]
    exact ⟨length_hmInsert_contains emb hcont,
      hmLookup_hmInsert_self c.cache (hashF text) emb,
      fun k hk => hmLookup_hmInsert_ne c.cache (hashF text) k emb hk,
      rfl⟩

/-- Witness for C5: capacity 2, keys "a","b","c" (hashF = id), a get hit on
"a", an eviction sparing "a", and an in-place update of "a". -/
theorem cache_lru_spec_witness :
    (EmbeddingCache.putList id (EmbeddingCache.new 2)
        [("a", []), ("b", []), ("c", [])]).cache = [("b", []), ("c", [])] ∧
    (EmbeddingCache.get id
        { cache := [("a", [some 1]), ("b", [])], access_order := ["a", "b"]
          max_size := 2 } "a").1 = some [some 1] ∧
    EmbeddingCache.contains id
      (EmbeddingCache.put id
        (EmbeddingCache.get id
          { cache := [("a", [some 1]), ("b", [])], access_order := ["a", "b"]
            max_size := 2 } "a").2 "c" []) "a" = true ∧
    hmLookup (EmbeddingCache.put id
      { cache := [("a", [some 1])], access_order := ["a"], max_size := 2 }
      "a" [some 2]).cache "a" = some [some 2] := by
  refine ⟨?_, ?_, ?_, ?_⟩
  · have h := (cache_lru_spec id).1 2 ("a", []) [("b", [])] ("c", [])
      (by decide) rfl (by decide)
    exact h.1.trans (by decide)
  · exact ((cache_lru_spec id).2.1
      { cache := [("a", [some 1]), ("b", [])], access_order := ["a", "b"]
        max_size := 2 } "a" [some 1] (by decide)).1
  · exact (cache_lru_spec id).2.2.1
      { cache := [("a", [some 1]), ("b", [])], access_order := ["a", "b"]
        max_size := 2 } "a" [some 1] "c" [] (by decide) (by decide)
      (by decide) (by decide)
  · exact ((cache_lru_spec id).2.2.2
      { cache := [("a", [some 1])], access_order := ["a"], max_size := 2 }
      "a" [some 2] (by decide)).2.1

/-! ## C6: add / get_all round trip -/

theorem ebind_ok {α β : Type} (a : α) (f : α → Except Error β) :
    ((Except.ok a : Except Error α) >>= f) = f a := rfl

theorem hmLookup_mem {β : Type} {l : List (String × β)} {k : String} {v : β}
    (h : hmLookup l k = some v) : v ∈ l.map Prod.snd := by
  simp only [hmLookup, Option.map_eq_some'] at h
  obtain ⟨p, hp, hv⟩ := h
  exact hv ▸ List.mem_map_of_mem _ (List.mem_of_find?_eq_some hp)

theorem ensure_collection_ok (cfg : MemoryConfig) (st : Store) (u : String) :
    ∃ st1, Memory.ensure_collection cfg st u = .ok st1 ∧
      ∃ c0, Store.findColl st1 (Memory.get_collection_name cfg u) = some c0 := by
  unfold Memory.ensure_collection InMemoryStore.create_collection
  by_cases h : (Store.findColl st (Memory.get_collection_name cfg u)).isSome
  · obtain ⟨c0, hc0⟩ := Option.isSome_iff_exists.mp h
    exact ⟨st, by simp [h], c0, hc0⟩
  · have hn : Store.findColl st (Memory.get_collection_name cfg u) = none := by
      cases hx : Store.findColl st (Memory.get_collection_name cfg u) with
      | none => rfl
      | some c => rw [hx] at h; simp at h
    refine ⟨st ++ [(Memory.get_collection_name cfg u, [])], by simp [h], [], ?_⟩
    simp only [Store.findColl] at hn ⊢
    rw [hmLookup_append, hn, hmLookup_singleton]
    simp

/-- C6: for every user `u`, content `c`, and optional type `t`, a successful
`add(u, c, t)` (embedder succeeding) followed by `get_all(u)` yields a list
containing an item whose content equals `c` and whose memory type equals `t`
(or "general" when `t` is unspecified). -/
theorem add_get_all_round_trip (env : Env) (cfg : MemoryConfig) (st : Store)
    (u c : String) (t : Option String) (uuid now : String) (v : List F)
    (hemb : env.embed c = .ok v) :
    ∃ st2 item, Memory.add env cfg st u c t uuid now = .ok (st2, item) ∧
      item.content = c ∧ item.memory_type = t.getD "general" ∧
      ∃ st3 items, Memory.get_all cfg st2 u = .ok (st3, items) ∧
      ∃ it ∈ items, it.content = c ∧ it.memory_type = t.getD "general" := by
  obtain ⟨st1, hens, c0, hc0⟩ := ensure_collection_ok cfg st u
  set name := Memory.get_collection_name cfg u with hname
  set memory := MemoryItem.new env.hashF uuid now u c (t.getD "general")
    with hmem
  set entry : VectorEntry := ⟨v, memory.to_vector_metadata⟩ with hentry
  set c1 : Coll := hmInsert c0 memory.id entry with hc1
  set st2 : Store := hmInsert st1 name c1 with hst2
  have hupsert : InMemoryStore.upsert st1 name
      [(memory.id, v, memory.to_vector_metadata)] = .ok st2 := by
    simp only [InMemoryStore.upsert, hc0, Option.isSome_some, if_true,
      Option.getD_some, List.foldl_cons, List.foldl_nil]
  have hadd : Memory.add env cfg st u c t uuid now = .ok (st2, memory) := by
    simp only [Memory.add, hens, ebind_ok, hemb, hupsert, ← hmem]
  have hfind2 : Store.findColl st2 name = some c1 := by
    simp only [hst2, Store.findColl]
    exact hmLookup_hmInsert_self st1 name c1
  have hens2 : Memory.ensure_collection cfg st2 u = .ok st2 := by
    unfold Memory.ensure_collection InMemoryStore.create_collection
    rw [← hname, hfind2]
    simp
  have hgetall : Memory.get_all cfg st2 u =
      .ok (st2, (c1.map fun p => p.2.metadata).map VectorMetadata.toMemoryItem) := by
    simp only [Memory.get_all, hens2, ebind_ok, InMemoryStore.get_all,
      ← hname, hfind2, Option.getD_some]
  refine ⟨st2, memory, hadd, rfl, rfl, st2, _, hgetall, ?_⟩
  refine ⟨VectorMetadata.toMemoryItem memory.to_vector_metadata, ?_, rfl, rfl⟩
  have hlk : hmLookup c1 memory.id = some entry :=
    hmLookup_hmInsert_self c0 memory.id entry
  have hventry : entry ∈ c1.map Prod.snd := hmLookup_mem hlk
  have hmd : memory.to_vector_metadata ∈ c1.map fun p => p.2.metadata := by
    have : (c1.map fun p => p.2.metadata) =
        (c1.map Prod.snd).map fun e => e.metadata := by
      rw [List.map_map]; rfl
    rw [this]
    exact List.mem_map_of_mem _ hventry
  exact List.mem_map_of_mem _ hmd

/-- Witness for C6 on the empty store with a trivial embedder. -/
theorem add_get_all_round_trip_witness :
    ∃ st2 item, Memory.add ⟨id, id, fun _ => .ok [some 1]⟩ ⟨none, none⟩ []
        "u1" "I like coffee" none "id-1" "t0" = .ok (st2, item) ∧
      item.content = "I like coffee" ∧
      item.memory_type = (none : Option String).getD "general" ∧
      ∃ st3 items, Memory.get_all ⟨none, none⟩ st2 "u1" = .ok (st3, items) ∧
      ∃ it ∈ items, it.content = "I like coffee" ∧
        it.memory_type = (none : Option String).getD "general" :=
  add_get_all_round_trip ⟨id, id, fun _ => .ok [some 1]⟩ ⟨none, none⟩ []
    "u1" "I like coffee" none "id-1" "t0" [some 1] rfl

/-! ## Stable-sort lemmas -/

theorem orderedInsertB_perm (le : α → α → Bool) (x : α) (l : List α) :
    (orderedInsertB le x l).Perm (x :: l) := by
  induction l with
  | nil => exact List.Perm.refl _
  | cons y ys ih =>
      by_cases h : le x y = true
      · simp [orderedInsertB, h]
      · simp only [orderedInsertB, h, Bool.false_eq_true, if_false]
        exact (ih.cons y).trans (List.Perm.swap x y ys)

theorem sortByB_perm (le : α → α → Bool) (l : List α) :
    (sortByB le l).Perm l := by
  induction l with
  | nil => exact List.Perm.refl _
  | cons x xs ih => exact (orderedInsertB_perm le x _).trans (ih.cons x)

theorem pairwise_orderedInsertB (le : α → α → Bool)
    (htrans : ∀ a b c, le a b = true → le b c = true → le a c = true)
    (htotal : ∀ a b, le a b = true ∨ le b a = true)
    (x : α) (l : List α) (hl : l.Pairwise fun a b => le a b = true) :
    (orderedInsertB le x l).Pairwise fun a b => le a b = true := by
  induction l with
  | nil => simp [orderedInsertB]
  | cons y ys ih =>
      rcases List.pairwise_cons.mp hl with ⟨hy, hys⟩
      by_cases h : le x y = true
      · simp only [orderedInsertB, h, if_true]
        refine List.pairwise_cons.mpr ⟨?_, hl⟩
        intro z hz
        rcases List.mem_cons.mp hz with rfl | hz
        · exact h
        · exact htrans x y z h (hy z hz)
      · have hyx : le y x = true := (htotal x y).resolve_left h
        simp only [orderedInsertB, h, Bool.false_eq_true, if_false]
        refine List.pairwise_cons.mpr ⟨?_, ih hys⟩
        intro z hz
        have hz' : z = x ∨ z ∈ ys := by
          have := (orderedInsertB_perm le x ys).mem_iff.mp hz
          simpa using this
        rcases hz' with rfl | hz'
        · exact hyx
        · exact hy z hz'

theorem pairwise_sortByB (le : α → α → Bool)
    (htrans : ∀ a b c, le a b = true → le b c = true → le a c = true)
    (htotal : ∀ a b, le a b = true ∨ le b a = true) (l : List α) :
    (sortByB le l).Pairwise fun a b => le a b = true := by
  induction l with
  | nil => simp [sortByB]
  | cons x xs ih => exact pairwise_orderedInsertB le htrans htotal x _ ih

theorem orderedInsertB_congr (le1 le2 : α → α → Bool) (x : α) (l : List α)
    (h : ∀ y ∈ l, le1 x y = le2 x y) :
    orderedInsertB le1 x l = orderedInsertB le2 x l := by
  induction l with
  | nil => rfl
  | cons y ys ih =>
      have hy := h y (List.mem_cons_self _ _)
      simp only [orderedInsertB, ← hy]
      by_cases hxy : le1 x y = true
      · rw [if_pos hxy, if_pos hxy]
      · rw [if_neg hxy, if_neg hxy,
          ih fun z hz => h z (List.mem_cons_of_mem _ hz)]

theorem sortByB_congr (le1 le2 : α → α → Bool) (l : List α)
    (h : ∀ x ∈ l, ∀ y ∈ l, le1 x y = le2 x y) :
    sortByB le1 l = sortByB le2 l := by
  induction l with
  | nil => rfl
  | cons x xs ih =>
      simp only [sortByB]
      rw [ih fun a ha b hb =>
        h a (List.mem_cons_of_mem _ ha) b (List.mem_cons_of_mem _ hb)]
      refine orderedInsertB_congr le1 le2 x _ fun y hy => ?_
      have hymem : y ∈ xs := (sortByB_perm le2 xs).mem_iff.mp hy
      exact h x (List.mem_cons_self _ _) y (List.mem_cons_of_mem _ hymem)

/-! ## The descending-score comparator -/

theorem scoreLe_finite (x y : String × F × VectorMetadata) (qx qy : ℚ)
    (hx : x.2.1 = some qx) (hy : y.2.1 = some qy) :
    scoreLe x y = decide (qy ≤ qx) := by
  simp only [scoreLe, hx, hy, fcmp, Option.getD_some]
  rw [decide_eq_decide, ne_eq, compare_gt_iff_gt]
  exact not_lt

theorem scoreLe_nan (a b : String × F × VectorMetadata)
    (h : a.2.1 = none ∨ b.2.1 = none) : scoreLe a b = true := by
  rcases h with h | h
  · cases hb : b.2.1 <;> simp [scoreLe, fcmp, h, hb]
  · cases ha : a.2.1 <;> simp [scoreLe, fcmp, h, ha]

theorem mem_searchCandidates (s : ℚ → ℚ) (q : List F) (thrOpt : Option F)
    (coll : Coll) (t : String × F × VectorMetadata)
    (ht : t ∈ InMemoryStore.searchCandidates s q thrOpt coll) :
    (∃ p ∈ coll, t.2.1 = cosine_similarity s q p.2.vector) ∧
    ∀ t0, thrOpt = some t0 → flt t.2.1 t0 = false := by
  rw [InMemoryStore.searchCandidates] at ht
  rcases List.mem_filterMap.mp ht with ⟨p, hp, hf⟩
  dsimp only at hf
  cases thrOpt with
  | none =>
      have hf' : some (p.1, cosine_similarity s q p.2.vector, p.2.metadata) =
          some t := hf
      rw [Option.some.injEq] at hf'
      subst hf'
      exact ⟨⟨p, hp, rfl⟩, fun t0 ht0 => by cases ht0⟩
  | some t0 =>
      have hf' : (if flt (cosine_similarity s q p.2.vector) t0 then none
          else some (p.1, cosine_similarity s q p.2.vector, p.2.metadata)) =
          some t := hf
      by_cases hflt : flt (cosine_similarity s q p.2.vector) t0 = true
      · rw [if_pos hflt] at hf'; cases hf'
      · rw [if_neg hflt] at hf'
        rw [Option.some.injEq] at hf'
        subst hf'
        refine ⟨⟨p, hp, rfl⟩, fun t1 ht1 => ?_⟩
        rw [Option.some.injEq] at ht1
        subst ht1
        simpa using hflt

/-! ## The full specification of a successful store search -/

theorem search_ok_spec (s : ℚ → ℚ) (st : Store) (name : String) (coll : Coll)
    (hc : Store.findColl st name = some coll) (q : List F) (k : ℕ)
    (thr : Option F) :
    ∃ rs, InMemoryStore.search s st name q k thr = .ok rs ∧
      rs.length ≤ k ∧
      (∀ t0, thr = some t0 → ∀ r ∈ rs, flt r.score t0 = false) ∧
      ((∀ p ∈ coll, (cosine_similarity s q p.2.vector).isSome) →
        rs.Pairwise fun a b => fge a.score b.score = true) := by
  set cands := InMemoryStore.searchCandidates s q thr coll with hcands
  set sorted := sortByB scoreLe cands with hsorted
  have hmem_sorted : ∀ t ∈ sorted, t ∈ cands := fun t ht =>
    (sortByB_perm scoreLe cands).mem_iff.mp ht
  refine ⟨(sorted.take k).map fun t => ⟨t.1, t.2.1, t.2.2⟩, ?_, ?_, ?_, ?_⟩
  · simp only [InMemoryStore.search, hc]
  · rw [List.length_map, List.length_take]
    exact min_le_left _ _
  · intro t0 ht0 r hr
    rcases List.mem_map.mp hr with ⟨t, ht, rfl⟩
    have htc : t ∈ cands := hmem_sorted t (List.take_subset k sorted ht)
    exact (mem_searchCandidates s q thr coll t htc).2 t0 ht0
  · intro hfin
    have hfin' : ∀ t ∈ cands, (t.2.1).isSome = true := by
      intro t ht
      obtain ⟨⟨p, hp, hcos⟩, -⟩ := mem_searchCandidates s q thr coll t ht
      rw [hcos]
      exact hfin p hp
    set leQ : (String × F × VectorMetadata) → (String × F × VectorMetadata) →
        Bool := fun a b => decide ((b.2.1.getD 0) ≤ (a.2.1.getD 0)) with hleQ
    have hcongr : ∀ x ∈ cands, ∀ y ∈ cands, scoreLe x y = leQ x y := by
      intro x hx y hy
      obtain ⟨qx, hqx⟩ := Option.isSome_iff_exists.mp (hfin' x hx)
      obtain ⟨qy, hqy⟩ := Option.isSome_iff_exists.mp (hfin' y hy)
      rw [scoreLe_finite x y qx qy hqx hqy, hleQ]
      simp [hqx, hqy]
    have hsort2 : sorted = sortByB leQ cands :=
      sortByB_congr scoreLe leQ cands hcongr
    have htrans : ∀ a b c, leQ a b = true → leQ b c = true → leQ a c = true := by
      intro a b c hab hbc
      simp only [hleQ, decide_eq_true_eq] at hab hbc ⊢
      exact le_trans hbc hab
    have htotal : ∀ a b, leQ a b = true ∨ leQ b a = true := by
      intro a b
      simp only [hleQ, decide_eq_true_eq]
      exact le_total _ _
    have hpw : (sortByB leQ cands).Pairwise fun a b => leQ a b = true :=
      pairwise_sortByB leQ htrans htotal cands
    rw [← hsort2] at hpw
    have hpwtake : (sorted.take k).Pairwise fun a b => leQ a b = true :=
      hpw.sublist (List.take_sublist k sorted)
    rw [List.pairwise_map]
    refine hpwtake.imp_of_mem ?_
    intro t u ht hu hle
    have htc : t ∈ cands := hmem_sorted t (List.take_subset k sorted ht)
    have huc : u ∈ cands := hmem_sorted u (List.take_subset k sorted hu)
    obtain ⟨qt, hqt⟩ := Option.isSome_iff_exists.mp (hfin' t htc)
    obtain ⟨qu, hqu⟩ := Option.isSome_iff_exists.mp (hfin' u huc)
    show fge t.2.1 u.2.1 = true
    rw [hqt, hqu]
    simp only [hleQ, decide_eq_true_eq, hqt, hqu, Option.getD_some] at hle
    simp [fge, hle]

/-! ## C3: the store search bounds (amended), and the NaN counterexample -/

/-- C3 counterexample: on the collection "c" holding the single entry "e1"
with stored vector `[NaN]`, searching with query `[1.0]`, limit 10 and
threshold `0.0` returns that entry with score NaN (NaN is not `<` the
threshold, so the filter keeps it), and NaN is not `≥ 0` — so "every
returned score is >= the supplied threshold" fails as stated. -/
theorem store_search_nan_score_counterexample :
    InMemoryStore.search id
      [("c", [("e1", ⟨[none], ⟨"e1", "u", none, none, "hello", "general",
        "t0", "t0", []⟩⟩)])] "c" [some 1] 10 (some (some 0)) =
      .ok [⟨"e1", none, ⟨"e1", "u", none, none, "hello", "general",
        "t0", "t0", []⟩⟩] ∧
    fge none (some 0) = false := by
  constructor
  · norm_num [InMemoryStore.search, InMemoryStore.searchCandidates,
      Store.findColl, hmLookup, cosine_similarity, dotF, ssqF, normF, fsqrtM,
      fadd, fmul, fdiv, feqz, flt, sortByB, orderedInsertB, scoreLe, fcmp]
  · rfl

/-- C3 (amended): for every existing collection, query vector, limit `k` and
optional threshold, search succeeds (total, no crash) with at most `k`
results; every returned score is not `<` the supplied threshold (so every
non-NaN returned score is ≥ it, while a NaN score passes the filter because
every NaN comparison is false); when every computed score is non-NaN the
results are ordered by non-increasing score; and the sort comparator treats
any NaN comparison as equal. -/
theorem store_search_bounded_spec (s : ℚ → ℚ) (st : Store) (name : String)
    (coll : Coll) (hc : Store.findColl st name = some coll) (q : List F)
    (k : ℕ) (thr : Option F) :
    (∃ rs, InMemoryStore.search s st name q k thr = .ok rs ∧
      rs.length ≤ k ∧
      (∀ t0, thr = some t0 → ∀ r ∈ rs, flt r.score t0 = false) ∧
      ((∀ p ∈ coll, (cosine_similarity s q p.2.vector).isSome) →
        rs.Pairwise fun a b => fge a.score b.score = true)) ∧
    ∀ a b : String × F × VectorMetadata, a.2.1 = none ∨ b.2.1 = none →
      scoreLe a b = true :=
  ⟨search_ok_spec s st name coll hc q k thr, scoreLe_nan⟩

/-- Witness for C3 (amended) on a one-entry collection with a finite score. -/
theorem store_search_bounded_spec_witness :
    ∃ rs, InMemoryStore.search id
        [("c", [("e1", ⟨[some 1], ⟨"e1", "u", none, none, "hello", "general",
          "t0", "t0", []⟩⟩)])] "c" [some 1] 1 (some (some 0)) = .ok rs ∧
      rs.length ≤ 1 ∧
      (∀ r ∈ rs, flt r.score (some 0) = false) ∧
      rs.Pairwise fun a b => fge a.score b.score = true := by
  obtain ⟨⟨rs, hok, hlen, hthr, hsort⟩, -⟩ :=
    store_search_bounded_spec id
      [("c", [("e1", ⟨[some 1], ⟨"e1", "u", none, none, "hello", "general",
        "t0", "t0", []⟩⟩)])] "c"
      [("e1", ⟨[some 1], ⟨"e1", "u", none, none, "hello", "general",
        "t0", "t0", []⟩⟩)] rfl [some 1] 1 (some (some 0))
  refine ⟨rs, hok, hlen, fun r hr => hthr (some 0) rfl r hr, hsort ?_⟩
  intro p hp
  simp only [List.mem_singleton] at hp
  subst hp
  norm_num [cosine_similarity, dotF, ssqF, normF, fsqrtM, fadd, fmul, fdiv,
    feqz]

/-! ## C1: orchestrator search passes a 0.0 lower score bound -/

/-- C1 counterexample: with the default config, the collection "mem0_u"
holds one entry whose cosine score against the query embedding is -1 (a
valid negative cosine similarity); the orchestrator search nevertheless
returns the empty list, because `Memory::search` (main.rs line 108) passes
`Some(0.0)` — not no bound — to the store, so the entry was not a candidate
result. -/
theorem memory_search_negative_dropped_counterexample :
    Memory.search ⟨id, id, fun _ => .ok [some 1]⟩ ⟨none, none⟩
      [("mem0_u", [("e1", ⟨[some (-1)], ⟨"e1", "u", none, none, "hello",
        "general", "t0", "t0", []⟩⟩)])] "u" "q" 10 =
      .ok ([("mem0_u", [("e1", ⟨[some (-1)], ⟨"e1", "u", none, none, "hello",
        "general", "t0", "t0", []⟩⟩)])], []) ∧
    cosine_similarity id [some 1] [some (-1)] = some (-1) := by
  have hs : "mem0" ++ "_" ++ "u" = "mem0_u" := by simp
  constructor
  · have h2 : InMemoryStore.search id
        [("mem0_u", [("e1", (⟨[some (-1)], ⟨"e1", "u", none, none, "hello",
          "general", "t0", "t0", []⟩⟩ : VectorEntry))])]
        "mem0_u" [some 1] 10 (some (some 0)) = .ok [] := by
      norm_num [InMemoryStore.search, InMemoryStore.searchCandidates,
        Store.findColl, hmLookup, cosine_similarity, dotF, ssqF, normF,
        fsqrtM, fadd, fmul, fdiv, feqz, flt, sortByB, scoreLe, fcmp]
    norm_num [Memory.search, Memory.ensure_collection,
      Memory.get_collection_name, MemoryConfig.getCollectionPrefix,
      MemoryConfig.get_vector_dimension, InMemoryStore.create_collection,
      Store.findColl, hmLookup, hs, h2, bind, Except.bind]
  · norm_num [cosine_similarity, dotF, ssqF, normF, fsqrtM, fadd, fmul,
      fdiv, feqz]

/-- C1 (amended): provided the embedder succeeds on the query, the
orchestrator search forwards the embedding to the store with a lower score
bound of `0.0` (`Some(0.0)`, main.rs line 108): the returned items are
exactly the store's results converted by `SearchResult.toItem`, in the
store's order with scores preserved, and every result passed the
`score < 0.0` filter — so entries with negative (or filtered) scores are
not candidates, contrary to a no-lower-bound reading. -/
theorem memory_search_zero_threshold (env : Env) (cfg : MemoryConfig)
    (st : Store) (user query : String) (limit : ℕ) (qv : List F)
    (hemb : env.embed query = .ok qv) :
    ∃ st1 rs, Memory.ensure_collection cfg st user = .ok st1 ∧
      InMemoryStore.search env.s st1 (Memory.get_collection_name cfg user) qv
        limit (some (some 0)) = .ok rs ∧
      Memory.search env cfg st user query limit =
        .ok (st1, rs.map SearchResult.toItem) ∧
      (∀ r ∈ rs, flt r.score (some 0) = false) ∧
      (rs.map SearchResult.toItem).map SearchResultItem.score =
        rs.map SearchResult.score := by
  obtain ⟨st1, hens, c0, hc0⟩ := ensure_collection_ok cfg st user
  obtain ⟨rs, hsearch, hlen, hthr, hsort⟩ :=
    search_ok_spec env.s st1 (Memory.get_collection_name cfg user) c0 hc0 qv
      limit (some (some 0))
  refine ⟨st1, rs, hens, hsearch, ?_,
    fun r hr => hthr (some 0) rfl r hr, ?_⟩
  · simp only [Memory.search, hens, ebind_ok, hemb, hsearch]
  · rw [List.map_map]
    rfl

/-- Witness for C1 (amended) on a one-entry store with unit vectors. -/
theorem memory_search_zero_threshold_witness :
    ∃ st1 rs, Memory.ensure_collection ⟨none, none⟩
        [("mem0_u", [("e1", ⟨[some 1], ⟨"e1", "u", none, none, "hello",
          "general", "t0", "t0", []⟩⟩)])] "u" = .ok st1 ∧
      InMemoryStore.search id st1
        (Memory.get_collection_name ⟨none, none⟩ "u") [some 1] 5
        (some (some 0)) = .ok rs ∧
      Memory.search ⟨id, id, fun _ => .ok [some 1]⟩ ⟨none, none⟩
        [("mem0_u", [("e1", ⟨[some 1], ⟨"e1", "u", none, none, "hello",
          "general", "t0", "t0", []⟩⟩)])] "u" "q" 5 =
        .ok (st1, rs.map SearchResult.toItem) ∧
      (∀ r ∈ rs, flt r.score (some 0) = false) ∧
      (rs.map SearchResult.toItem).map SearchResultItem.score =
        rs.map SearchResult.score :=
  memory_search_zero_threshold ⟨id, id, fun _ => .ok [some 1]⟩ ⟨none, none⟩
    [("mem0_u", [("e1", ⟨[some 1], ⟨"e1", "u", none, none, "hello",
      "general", "t0", "t0", []⟩⟩)])] "u" "q" 5 [some 1] rfl

end MemRs
